import Mathlib

/-!
# Verification of the `sudoku` solver

A shallow embedding of the Rust sources `nine_set.rs`, `nine_by_nine.rs` and
`puzzle.rs`, together with proofs of the specification claims.

Conventions of the embedding:

* A cell value (a digit 1..9) is modelled by `Fin 9`; the element
  `d : Fin 9` represents the digit `d.val + 1`.  The Rust `NineSet`
  stores membership of digit `n` at array index `n - 1`; here the
  membership array is indexed by `Fin 9` directly, so `contents d`
  is the membership bit of the digit represented by `d`.
* `NineByNine` stores a linear 81-element array addressed as
  `row * 9 + col`; here it is modelled as a curried function
  `Fin 9 → Fin 9 → Option α` with `get`/`set` the obvious accessors.
* The Rust `fill_all` loop and the `solve`/`try_guesses` recursion are
  modelled with an explicit fuel parameter (the Rust recursion has no
  fuel; it terminates because each pass or guess strictly decreases the
  number of empty cells).  Fuel-independence theorems below show that
  the fuel supplied by `fill_all` and `solve` always suffices, so the
  fuelled functions agree with the Rust semantics.
-/

/-- A digit of a Sudoku cell: `d : Digit` stands for the number `d.val + 1 ∈ [1,9]`. -/
abbrev Digit := Fin 9

/-- `nine_set.rs`: a set of numbers in `[1,9]`, stored as nine membership bits;
the bit for digit `n` (represented here by `n - 1 : Fin 9`) is `contents (n-1)`. -/
structure NineSet where
  contents : Fin 9 → Bool

instance : DecidableEq NineSet := fun a b =>
  decidable_of_iff (∀ i, a.contents i = b.contents i)
    ⟨fun h => by cases a; cases b; simp only [NineSet.mk.injEq]; funext i; exact h i,
     fun h i => by rw [h]⟩

/-- `NineSet::empty`: the set with no members. -/
def NineSet.empty : NineSet := ⟨fun _ => false⟩

/-- `NineSet::add`: set the membership bit of digit `n` to `true`. -/
def NineSet.add (s : NineSet) (n : Digit) : NineSet :=
  ⟨fun i => if i = n then true else s.contents i⟩

/-- `NineSet::contains`: the membership bit of digit `n` (the Rust range check
`1 <= n <= 9` is enforced by the `Digit` type). -/
def NineSet.contains (s : NineSet) (n : Digit) : Bool := s.contents n

/-- `NineSet::size`: the number of members. -/
def NineSet.size (s : NineSet) : Nat :=
  ((List.finRange 9).filter fun i => s.contents i).length

/-- `NineSet::to_vec`: the members, in ascending digit order. -/
def NineSet.to_vec (s : NineSet) : List Digit :=
  (List.finRange 9).filter fun i => s.contains i

/-- `NineSet::complement`: the digits of `[1,9]` not in `s`. -/
def NineSet.complement (s : NineSet) : NineSet := ⟨fun i => !s.contents i⟩

/-- `nine_set.rs` free function `union`: digits contained in at least one set of the list. -/
def NineSet.union (sets : List NineSet) : NineSet :=
  ⟨fun i => sets.any fun s => s.contains i⟩

/-- `impl From<Vec<u8>> for NineSet`: add every element of the list
(the Rust out-of-range panic cannot fire for `Digit` values). -/
def NineSet.ofList (l : List Digit) : NineSet :=
  l.foldl NineSet.add NineSet.empty

/-- `nine_by_nine.rs`: a 9×9 array of optional values, addressed by (row, col). -/
structure NineByNine (α : Type) where
  data : Fin 9 → Fin 9 → Option α

instance {α : Type} [DecidableEq α] : DecidableEq (NineByNine α) := fun a b =>
  decidable_of_iff (∀ r c, a.data r c = b.data r c)
    ⟨fun h => by cases a; cases b; simp only [NineByNine.mk.injEq]; funext r c; exact h r c,
     fun h r c => by rw [h]⟩

/-- `NineByNine::get`. -/
def NineByNine.get {α : Type} (g : NineByNine α) (row col : Fin 9) : Option α :=
  g.data row col

/-- `NineByNine::set`. -/
def NineByNine.set {α : Type} (g : NineByNine α) (row col : Fin 9) (val : Option α) :
    NineByNine α :=
  ⟨fun r c => if r = row ∧ c = col then val else g.data r c⟩

/-- All 81 cells in row-major order (rows outer, cols inner), as iterated by
the nested `for row in 0..9 { for col in 0..9 { ... } }` loops of the source. -/
def allCells : List (Fin 9 × Fin 9) :=
  (List.finRange 9).flatMap fun r => (List.finRange 9).map fun c => (r, c)

/-- `NineByNine::count_nones`: the number of `none` cells. -/
def NineByNine.count_nones {α : Type} (g : NineByNine α) : Nat :=
  (allCells.filter fun rc => (g.get rc.1 rc.2).isNone).length

/-- `puzzle.rs`: a Sudoku puzzle wrapping a 9×9 grid of optional digits. -/
structure SudokuPuzzle where
  nums : NineByNine Digit

instance : DecidableEq SudokuPuzzle := fun a b =>
  decidable_of_iff (a.nums = b.nums)
    ⟨fun h => by cases a; cases b; simpa using h, fun h => by rw [h]⟩

/-- Equality of `Option SudokuPuzzle` decided through `decidable_of_iff`
rather than the derived instance: the derived instance transports a
`Decidable` value along an equality proof, which blocks kernel reduction of
`decide` on concrete puzzles. -/
instance : DecidableEq (Option SudokuPuzzle) := fun a b =>
  match a, b with
  | none, none => isTrue rfl
  | none, some _ => isFalse (by simp)
  | some _, none => isFalse (by simp)
  | some x, some y => decidable_of_iff (x = y) (by simp)

namespace SudokuPuzzle

/-- `SudokuPuzzle::count_unfilled`. -/
def count_unfilled (p : SudokuPuzzle) : Nat := p.nums.count_nones

/-- `SudokuPuzzle::row_list`: the filled values of row `row_idx`, in column order. -/
def row_list (p : SudokuPuzzle) (row_idx : Fin 9) : List Digit :=
  (List.finRange 9).filterMap fun col => p.nums.get row_idx col

/-- `SudokuPuzzle::col_list`: the filled values of column `col_idx`, in row order. -/
def col_list (p : SudokuPuzzle) (col_idx : Fin 9) : List Digit :=
  (List.finRange 9).filterMap fun row => p.nums.get row col_idx

/-- Row of the `i`-th cell of box `sqr_idx`: `sqr_idx / 3 * 3 + i / 3`. -/
def sqrRow (sqr_idx i : Fin 9) : Fin 9 :=
  ⟨sqr_idx.val / 3 * 3 + i.val / 3, by omega⟩

/-- Column of the `i`-th cell of box `sqr_idx`: `sqr_idx % 3 * 3 + i % 3`. -/
def sqrCol (sqr_idx i : Fin 9) : Fin 9 :=
  ⟨sqr_idx.val % 3 * 3 + i.val % 3, by omega⟩

/-- `SudokuPuzzle::sqr_list`: the filled values of the 3×3 box `sqr_idx`
(boxes numbered left-to-right, top-to-bottom from 0). -/
def sqr_list (p : SudokuPuzzle) (sqr_idx : Fin 9) : List Digit :=
  (List.finRange 9).filterMap fun i => p.nums.get (sqrRow sqr_idx i) (sqrCol sqr_idx i)

/-- `SudokuPuzzle::row_set`. -/
def row_set (p : SudokuPuzzle) (row_idx : Fin 9) : NineSet :=
  NineSet.ofList (p.row_list row_idx)

/-- `SudokuPuzzle::col_set`. -/
def col_set (p : SudokuPuzzle) (col_idx : Fin 9) : NineSet :=
  NineSet.ofList (p.col_list col_idx)

/-- `SudokuPuzzle::sqr_set`. -/
def sqr_set (p : SudokuPuzzle) (sqr_idx : Fin 9) : NineSet :=
  NineSet.ofList (p.sqr_list sqr_idx)

/-- The box index `(row / 3 * 3) + (col / 3)` used by `could_be_set`. -/
def boxIdx (row col : Fin 9) : Fin 9 :=
  ⟨row.val / 3 * 3 + col.val / 3, by omega⟩

/-- `SudokuPuzzle::could_be_set`: the complement of the union of the row, column
and box value sets of the cell. -/
def could_be_set (p : SudokuPuzzle) (row col : Fin 9) : NineSet :=
  (NineSet.union [p.row_set row, p.col_set col, p.sqr_set (boxIdx row col)]).complement

/-- `SudokuPuzzle::could_be_sets`, as the total function underlying the
`NineByNine<NineSet>` the source builds: every entry of that array is `Some`
(either the singleton of a filled value or `could_be_set`) and the source
unwraps it at each use. -/
def could_be_sets (p : SudokuPuzzle) (row col : Fin 9) : NineSet :=
  match p.nums.get row col with
  | some n => NineSet.empty.add n
  | none => p.could_be_set row col

/-- `SudokuPuzzle::is_consistent`: no row, column or box contains a duplicate
(each group's value list is as long as the set built from it). -/
def is_consistent (p : SudokuPuzzle) : Bool :=
  (List.finRange 9).all fun i =>
    ((p.row_list i).length == (NineSet.ofList (p.row_list i)).size)
    && ((p.col_list i).length == (NineSet.ofList (p.col_list i)).size)
    && ((p.sqr_list i).length == (NineSet.ofList (p.sqr_list i)).size)

/-- `SudokuPuzzle::is_solved`: no empty cell and consistent. -/
def is_solved (p : SudokuPuzzle) : Bool :=
  (p.count_unfilled == 0) && p.is_consistent

/-- `SudokuPuzzle::fill_once`: one propagation pass.  If some cell's
possibility set is empty the pass fails; otherwise the result grid holds, in
each cell, the single member of its possibility set when that set is a
singleton (`to_vec()[0]`), and nothing otherwise. -/
def fill_once (p : SudokuPuzzle) : Option SudokuPuzzle :=
  if ∀ r c, (p.could_be_sets r c).size ≠ 0 then
    some ⟨⟨fun r c =>
      if (p.could_be_sets r c).size = 1 then (p.could_be_sets r c).to_vec.head? else none⟩⟩
  else none

/-- The `while` loop of `SudokuPuzzle::fill_all`, with explicit fuel.
`fill_all` supplies fuel `count_unfilled + 1`, which always suffices
(`spec_C8_termination` below), so this is the Rust loop exactly. -/
def fillAllLoop : Nat → Nat → Option SudokuPuzzle → Option SudokuPuzzle
  | 0, _, filled => filled
  | fuel + 1, prev_unfilled, filled =>
    match filled with
    | none => none
    | some q =>
      if q.count_unfilled ≠ prev_unfilled then
        fillAllLoop fuel q.count_unfilled q.fill_once
      else some q

/-- `SudokuPuzzle::fill_all`: iterate `fill_once` until a pass fails or the
count of empty cells stops changing. -/
def fill_all (p : SudokuPuzzle) : Option SudokuPuzzle :=
  fillAllLoop (p.count_unfilled + 1) p.count_unfilled p.fill_once

/-- The cell-selection scan of `SudokuPuzzle::try_guesses`: starting from
`(0, 0)`, walk the 81 cells in row-major order and overwrite the candidate
whenever a cell's possibility set has more than one member. -/
def selectCell (p : SudokuPuzzle) : Fin 9 × Fin 9 :=
  allCells.foldl (fun acc rc => if (p.could_be_sets rc.1 rc.2).size > 1 then rc else acc) (0, 0)

/-- `puzzle_guess.nums.set(row, col, Some(guess))` on a clone of the puzzle. -/
def setCell (p : SudokuPuzzle) (row col : Fin 9) (guess : Digit) : SudokuPuzzle :=
  ⟨p.nums.set row col (some guess)⟩

/-- `SudokuPuzzle::solve`, with explicit fuel bounding the recursion depth of
`solve → try_guesses → solve`.  The body at fuel `n + 1` is the Rust `solve`
with the body of `try_guesses` inlined: run `fill_all`; on failure or an
inconsistent result return `none`; on a solved result return it; otherwise try
every member of the selected cell's possibility set in ascending order and
return the first recursive solve that succeeds.  `solve` supplies fuel
`count_unfilled + 1`, which always suffices (`spec_C8_termination` below). -/
def solveFuel : Nat → SudokuPuzzle → Option SudokuPuzzle
  | 0, _ => none
  | n + 1, p =>
    match p.fill_all with
    | some q =>
      if q.is_solved then some q
      else if q.is_consistent then
        (q.could_be_sets (q.selectCell).1 (q.selectCell).2).to_vec.findSome? fun guess =>
          solveFuel n (q.setCell (q.selectCell).1 (q.selectCell).2 guess)
      else none
    | none => none

/-- `SudokuPuzzle::try_guesses` (its body is inlined in `solveFuel`; the
theorem `solveFuel_succ` below identifies the two): guess each member of the
selected cell's possibility set, in ascending order, on a clone of the puzzle,
and return the first recursive solve that succeeds. -/
def try_guesses (fuel : Nat) (p : SudokuPuzzle) : Option SudokuPuzzle :=
  (p.could_be_sets (p.selectCell).1 (p.selectCell).2).to_vec.findSome? fun guess =>
    solveFuel fuel (p.setCell (p.selectCell).1 (p.selectCell).2 guess)

/-- `SudokuPuzzle::solve`: fuel `count_unfilled + 1` always suffices
(`spec_C8_termination`), so this is the Rust recursion. -/
def solve (p : SudokuPuzzle) : Option SudokuPuzzle :=
  solveFuel (p.count_unfilled + 1) p

/-- Modelled from the spec (§4.3, `fillAll`): the result of running exactly
`n` single propagation passes, failures propagating.  Used to state that
`fill_all` "repeatedly invokes a single pass". -/
def fillPasses (p : SudokuPuzzle) : Nat → Option SudokuPuzzle
  | 0 => some p
  | n + 1 => (fillPasses p n).bind fill_once

end SudokuPuzzle

/-- The puzzle with every cell empty (all inputs `0`). -/
def emptyPuzzle : SudokuPuzzle := ⟨⟨fun _ _ => none⟩⟩

/-- The digit placed at `(r, c)` by a standard shifted-rows construction of a
complete valid Sudoku grid. -/
def digitAt (r c : Fin 9) : Digit := ⟨(r.val * 3 + r.val / 3 + c.val) % 9, by omega⟩

/-- A concrete fully-filled consistent grid, used as a witness input. -/
def solvedPuzzle : SudokuPuzzle := ⟨⟨fun r c => some (digitAt r c)⟩⟩

/-! ## Basic lemmas about `NineSet` -/

namespace NineSet

@[ext] theorem ext_contents {a b : NineSet} (h : ∀ i, a.contents i = b.contents i) : a = b := by
  cases a; cases b; simp only [NineSet.mk.injEq]; funext i; exact h i

theorem contains_foldl (l : List Digit) (s : NineSet) (d : Digit) :
    ((l.foldl NineSet.add s).contains d = true) ↔ (d ∈ l ∨ s.contains d = true) := by
  induction l generalizing s with
  | nil => simp
  | cons a t ih =>
    rw [List.foldl_cons, ih]
    by_cases h : d = a <;> simp [h, contains, add]

theorem contains_ofList (l : List Digit) (d : Digit) :
    ((NineSet.ofList l).contains d = true) ↔ d ∈ l := by
  rw [ofList, contains_foldl]
  simp [contains, empty]

theorem size_eq_length_to_vec (s : NineSet) : s.size = s.to_vec.length := rfl

theorem mem_to_vec (s : NineSet) (d : Digit) : d ∈ s.to_vec ↔ s.contains d = true := by
  simp [to_vec, List.mem_filter]

theorem to_vec_sorted (s : NineSet) : s.to_vec.Pairwise (· < ·) :=
  (List.pairwise_lt_finRange 9).filter _

theorem contains_singleton (v i : Digit) :
    ((NineSet.empty.add v).contains i = true) ↔ i = v := by
  simp [empty, add, contains]

theorem to_vec_singleton : ∀ v : Digit, (NineSet.empty.add v).to_vec = [v] := by decide

theorem size_singleton : ∀ v : Digit, (NineSet.empty.add v).size = 1 := by decide

theorem size_eq_one_iff (s : NineSet) : s.size = 1 ↔ ∃ v, s.to_vec = [v] := by
  rw [size_eq_length_to_vec, List.length_eq_one]

theorem contains_union (sets : List NineSet) (d : Digit) :
    ((NineSet.union sets).contains d = true) ↔ ∃ s ∈ sets, s.contains d = true := by
  simp [union, contains, List.any_eq_true]

theorem contains_complement (s : NineSet) (d : Digit) :
    ((s.complement).contains d = true) ↔ ¬(s.contains d = true) := by
  simp [complement, contains]

theorem length_filter_finRange (q : Fin 9 → Bool) :
    ((List.finRange 9).filter q).length = (Finset.univ.filter fun i => q i = true).card := by
  rw [← List.toFinset_card_of_nodup ((List.nodup_finRange 9).filter q)]
  congr 1
  ext x
  simp [List.mem_filter, List.mem_finRange]

theorem size_eq_card (s : NineSet) :
    s.size = (Finset.univ.filter fun i => s.contents i = true).card :=
  length_filter_finRange _

theorem size_ofList (l : List Digit) : (NineSet.ofList l).size = l.toFinset.card := by
  rw [size_eq_card]
  congr 1
  ext d
  simpa using contains_ofList l d

theorem length_eq_size_ofList_iff_nodup (l : List Digit) :
    (l.length = (NineSet.ofList l).size) ↔ l.Nodup := by
  rw [size_ofList]
  constructor
  · intro h
    rw [List.card_toFinset] at h
    have hlen : l.dedup.length = l.length := h.symm
    have hde : l.dedup = l := l.dedup_sublist.eq_of_length hlen
    rw [← hde]
    exact l.nodup_dedup
  · intro h
    rw [List.toFinset_card_of_nodup h]

end NineSet

/-! ## Basic lemmas about the grid and empty-cell counting -/

@[ext] theorem NineByNine.ext_data {α : Type} {a b : NineByNine α}
    (h : ∀ r c, a.data r c = b.data r c) : a = b := by
  cases a; cases b; simp only [NineByNine.mk.injEq]; funext r c; exact h r c

@[ext] theorem SudokuPuzzle.ext_cells {a b : SudokuPuzzle}
    (h : ∀ r c, a.nums.get r c = b.nums.get r c) : a = b := by
  cases a; cases b
  simp only [SudokuPuzzle.mk.injEq]
  exact NineByNine.ext_data h

theorem mem_allCells (rc : Fin 9 × Fin 9) : rc ∈ allCells := by
  obtain ⟨r, c⟩ := rc
  simp [allCells]

theorem nodup_allCells : allCells.Nodup := by decide

theorem length_allCells : allCells.length = 81 := by decide

namespace SudokuPuzzle

theorem count_unfilled_eq_card (p : SudokuPuzzle) :
    p.count_unfilled =
      (Finset.univ.filter fun rc : Fin 9 × Fin 9 => p.nums.get rc.1 rc.2 = none).card := by
  rw [count_unfilled, NineByNine.count_nones,
    ← List.toFinset_card_of_nodup (nodup_allCells.filter _)]
  congr 1
  ext rc
  simp [List.mem_filter, mem_allCells, Option.isNone_iff_eq_none]

theorem count_unfilled_eq_zero_iff (p : SudokuPuzzle) :
    p.count_unfilled = 0 ↔ ∀ r c, p.nums.get r c ≠ none := by
  rw [count_unfilled_eq_card, Finset.card_eq_zero, Finset.filter_eq_empty_iff]
  simp

theorem count_unfilled_le (p : SudokuPuzzle) : p.count_unfilled ≤ 81 := by
  calc p.count_unfilled ≤ allCells.length := List.length_filter_le _ _
  _ = 81 := length_allCells

theorem get_setCell_self (p : SudokuPuzzle) (row col : Fin 9) (guess : Digit) :
    (p.setCell row col guess).nums.get row col = some guess := by
  simp [setCell, NineByNine.get, NineByNine.set]

theorem get_setCell_of_ne (p : SudokuPuzzle) (row col r c : Fin 9) (guess : Digit)
    (h : ¬(r = row ∧ c = col)) :
    (p.setCell row col guess).nums.get r c = p.nums.get r c := by
  simp only [setCell, NineByNine.get, NineByNine.set, if_neg h]

theorem count_setCell (p : SudokuPuzzle) (row col : Fin 9) (guess : Digit)
    (h : p.nums.get row col = none) :
    (p.setCell row col guess).count_unfilled + 1 = p.count_unfilled := by
  rw [count_unfilled_eq_card, count_unfilled_eq_card]
  have hmem : (row, col) ∈ Finset.univ.filter
      fun rc : Fin 9 × Fin 9 => p.nums.get rc.1 rc.2 = none := by
    simp [h]
  have hset : (Finset.univ.filter
        fun rc : Fin 9 × Fin 9 => (p.setCell row col guess).nums.get rc.1 rc.2 = none)
      = (Finset.univ.filter fun rc : Fin 9 × Fin 9 => p.nums.get rc.1 rc.2 = none).erase
          (row, col) := by
    ext rc
    by_cases hrc : rc.1 = row ∧ rc.2 = col
    · have : rc = (row, col) := by
        obtain ⟨r, c⟩ := rc
        simp_all
      simp [this, Finset.mem_erase, get_setCell_self]
    · have hne : rc ≠ (row, col) := fun heq => hrc ⟨by rw [heq], by rw [heq]⟩
      simp [Finset.mem_erase, Finset.mem_filter,
        get_setCell_of_ne p row col rc.1 rc.2 guess hrc, hne]
  rw [hset, Finset.card_erase_of_mem hmem]
  have hpos : 0 < (Finset.univ.filter
      fun rc : Fin 9 × Fin 9 => p.nums.get rc.1 rc.2 = none).card :=
    Finset.card_pos.mpr ⟨(row, col), hmem⟩
  omega

theorem count_setCell_lt (p : SudokuPuzzle) (row col : Fin 9) (guess : Digit)
    (h : p.nums.get row col = none) :
    (p.setCell row col guess).count_unfilled < p.count_unfilled := by
  have := count_setCell p row col guess h
  omega

end SudokuPuzzle

/-! ## Lemmas about a single propagation pass -/

namespace SudokuPuzzle

theorem fill_once_eq_none_iff (p : SudokuPuzzle) :
    p.fill_once = none ↔ ∃ r c, (p.could_be_sets r c).size = 0 := by
  by_cases hc : ∀ r c, (p.could_be_sets r c).size ≠ 0
  · rw [fill_once, if_pos hc]
    simp only [reduceCtorEq, false_iff]
    push_neg
    exact hc
  · rw [fill_once, if_neg hc]
    simp only [true_iff]
    push_neg at hc
    exact hc

theorem fill_once_sizes_ne_zero (p q : SudokuPuzzle) (h : p.fill_once = some q) :
    ∀ r c, (p.could_be_sets r c).size ≠ 0 := by
  by_cases hc : ∀ r c, (p.could_be_sets r c).size ≠ 0
  · exact hc
  · rw [fill_once, if_neg hc] at h
    cases h

theorem fill_once_get (p q : SudokuPuzzle) (h : p.fill_once = some q) (r c : Fin 9) :
    q.nums.get r c =
      if (p.could_be_sets r c).size = 1 then (p.could_be_sets r c).to_vec.head? else none := by
  by_cases hc : ∀ r c, (p.could_be_sets r c).size ≠ 0
  · rw [fill_once, if_pos hc] at h
    have hq := Option.some.inj h
    rw [← hq]
    rfl
  · rw [fill_once, if_neg hc] at h
    cases h

theorem could_be_sets_of_filled (p : SudokuPuzzle) (r c : Fin 9) (v : Digit)
    (h : p.nums.get r c = some v) :
    p.could_be_sets r c = NineSet.empty.add v := by
  rw [could_be_sets, h]

theorem fill_once_preserves (p q : SudokuPuzzle) (h : p.fill_once = some q) (r c : Fin 9)
    (v : Digit) (hv : p.nums.get r c = some v) :
    q.nums.get r c = some v := by
  rw [fill_once_get p q h, could_be_sets_of_filled p r c v hv, NineSet.size_singleton,
    if_pos rfl, NineSet.to_vec_singleton]
  rfl

theorem fill_once_count_le (p q : SudokuPuzzle) (h : p.fill_once = some q) :
    q.count_unfilled ≤ p.count_unfilled := by
  rw [count_unfilled_eq_card, count_unfilled_eq_card]
  apply Finset.card_le_card
  intro rc hrc
  simp only [Finset.mem_filter, Finset.mem_univ, true_and] at hrc ⊢
  cases hp : p.nums.get rc.1 rc.2 with
  | none => rfl
  | some v => rw [fill_once_preserves p q h rc.1 rc.2 v hp] at hrc; cases hrc

theorem fill_once_rigid (p q : SudokuPuzzle) (h : p.fill_once = some q)
    (hc : q.count_unfilled = p.count_unfilled) : q = p := by
  have hsub : (Finset.univ.filter fun rc : Fin 9 × Fin 9 => q.nums.get rc.1 rc.2 = none)
      ⊆ (Finset.univ.filter fun rc : Fin 9 × Fin 9 => p.nums.get rc.1 rc.2 = none) := by
    intro rc hrc
    simp only [Finset.mem_filter, Finset.mem_univ, true_and] at hrc ⊢
    cases hp : p.nums.get rc.1 rc.2 with
    | none => rfl
    | some v => rw [fill_once_preserves p q h rc.1 rc.2 v hp] at hrc; cases hrc
  have hcards : (Finset.univ.filter fun rc : Fin 9 × Fin 9 => p.nums.get rc.1 rc.2 = none).card
      ≤ (Finset.univ.filter fun rc : Fin 9 × Fin 9 => q.nums.get rc.1 rc.2 = none).card := by
    rw [← count_unfilled_eq_card, ← count_unfilled_eq_card]
    omega
  have hset := Finset.eq_of_subset_of_card_le hsub hcards
  apply SudokuPuzzle.ext_cells
  intro r c
  cases hp : p.nums.get r c with
  | some v => rw [fill_once_preserves p q h r c v hp]
  | none =>
    have hq : (r, c) ∈ Finset.univ.filter
        fun rc : Fin 9 × Fin 9 => q.nums.get rc.1 rc.2 = none := by
      rw [hset]
      simp [hp]
    simp only [Finset.mem_filter, Finset.mem_univ, true_and] at hq
    rw [hq]

theorem fixpoint_filled_iff (q : SudokuPuzzle) (h : q.fill_once = some q) (r c : Fin 9) :
    q.nums.get r c = none ↔ (q.could_be_sets r c).size ≠ 1 := by
  rw [fill_once_get q q h r c]
  by_cases hs : (q.could_be_sets r c).size = 1
  · obtain ⟨v, hv⟩ := (NineSet.size_eq_one_iff _).mp hs
    simp [hs, hv]
  · simp [hs]

theorem fixpoint_empty_ge_two (q : SudokuPuzzle) (h : q.fill_once = some q) (r c : Fin 9)
    (hc : q.nums.get r c = none) : 2 ≤ (q.could_be_sets r c).size := by
  have h1 : (q.could_be_sets r c).size ≠ 1 := (fixpoint_filled_iff q h r c).mp hc
  have h0 : (q.could_be_sets r c).size ≠ 0 := fill_once_sizes_ne_zero q q h r c
  omega

theorem filled_size_one (p : SudokuPuzzle) (r c : Fin 9) (v : Digit)
    (hv : p.nums.get r c = some v) : (p.could_be_sets r c).size = 1 := by
  rw [could_be_sets_of_filled p r c v hv, NineSet.size_singleton]

end SudokuPuzzle

/-! ## Lemmas about propagation to fixpoint -/

namespace SudokuPuzzle

theorem fillAllLoop_pres (P : SudokuPuzzle → Prop)
    (hstep : ∀ a b, P a → a.fill_once = some b → P b) :
    ∀ (fuel prev : Nat) (filled : Option SudokuPuzzle) (q : SudokuPuzzle),
      (∀ t, filled = some t → P t) → fillAllLoop fuel prev filled = some q → P q := by
  intro fuel
  induction fuel with
  | zero => intro prev filled q hinv hloop; exact hinv q hloop
  | succ f ih =>
    intro prev filled q hinv hloop
    cases filled with
    | none => simp [fillAllLoop] at hloop
    | some t =>
      rw [fillAllLoop] at hloop
      by_cases hne : t.count_unfilled ≠ prev
      · rw [if_pos hne] at hloop
        exact ih _ _ q (fun u hu => hstep t u (hinv t rfl) hu) hloop
      · rw [if_neg hne] at hloop
        rw [← Option.some.inj hloop]
        exact hinv t rfl

theorem fill_all_pres (P : SudokuPuzzle → Prop)
    (hstep : ∀ a b, P a → a.fill_once = some b → P b) (p q : SudokuPuzzle)
    (hp : P p) (h : p.fill_all = some q) : P q :=
  fillAllLoop_pres P hstep _ _ _ q (fun t ht => hstep p t hp ht) h

theorem fill_all_preserves_filled (p q : SudokuPuzzle) (h : p.fill_all = some q)
    (r c : Fin 9) (v : Digit) (hv : p.nums.get r c = some v) : q.nums.get r c = some v := by
  refine fill_all_pres (fun t => ∀ r c v, p.nums.get r c = some v → t.nums.get r c = some v)
    ?_ p q (fun _ _ _ hh => hh) h r c v hv
  intro a b ha hab r2 c2 v2 hv2
  exact fill_once_preserves a b hab r2 c2 v2 (ha r2 c2 v2 hv2)

theorem fill_all_count_le (p q : SudokuPuzzle) (h : p.fill_all = some q) :
    q.count_unfilled ≤ p.count_unfilled := by
  refine fill_all_pres (fun t => t.count_unfilled ≤ p.count_unfilled) ?_ p q le_rfl h
  intro a b ha hab
  exact le_trans (fill_once_count_le a b hab) ha

theorem fillAllLoop_fixpoint :
    ∀ (fuel prev : Nat) (filled : Option SudokuPuzzle) (q : SudokuPuzzle),
      (∀ t, filled = some t →
        t.count_unfilled ≤ prev ∧
          ∃ r : SudokuPuzzle, r.fill_once = some t ∧ r.count_unfilled = prev) →
      prev < fuel →
      fillAllLoop fuel prev filled = some q → q.fill_once = some q := by
  intro fuel
  induction fuel with
  | zero => intro prev filled q hinv hbound hloop; exact absurd hbound (Nat.not_lt_zero prev)
  | succ f ih =>
    intro prev filled q hinv hbound hloop
    cases filled with
    | none => simp [fillAllLoop] at hloop
    | some t =>
      obtain ⟨hle, r, hr, hrc⟩ := hinv t rfl
      rw [fillAllLoop] at hloop
      by_cases hne : t.count_unfilled ≠ prev
      · rw [if_pos hne] at hloop
        refine ih t.count_unfilled t.fill_once q ?_ (by omega) hloop
        intro u hu
        exact ⟨fill_once_count_le t u hu, t, hu, rfl⟩
      · rw [if_neg hne] at hloop
        push_neg at hne
        have ht := Option.some.inj hloop
        have htr : t = r := fill_once_rigid r t hr (by omega)
        rw [← ht, htr]
        rw [htr] at hr
        exact hr

theorem fill_all_fixpoint (p q : SudokuPuzzle) (h : p.fill_all = some q) :
    q.fill_once = some q := by
  refine fillAllLoop_fixpoint (p.count_unfilled + 1) p.count_unfilled p.fill_once q ?_
    (by omega) h
  intro t ht
  exact ⟨fill_once_count_le p t ht, p, ht, rfl⟩

theorem fillPasses_one (p : SudokuPuzzle) : fillPasses p 1 = p.fill_once := rfl

theorem fillAllLoop_passes :
    ∀ (fuel prev : Nat) (filled : Option SudokuPuzzle) (p : SudokuPuzzle),
      (∃ k, filled = fillPasses p (k + 1)) →
      (∀ q, fillAllLoop fuel prev filled = some q → ∃ n, fillPasses p (n + 1) = some q)
      ∧ (fillAllLoop fuel prev filled = none → ∃ n, fillPasses p n = none) := by
  intro fuel
  induction fuel with
  | zero =>
    intro prev filled p hk
    obtain ⟨k, hk⟩ := hk
    constructor
    · intro q hq
      exact ⟨k, by rw [← hk]; exact hq⟩
    · intro hq
      exact ⟨k + 1, by rw [← hk]; exact hq⟩
  | succ f ih =>
    intro prev filled p hk
    obtain ⟨k, hk⟩ := hk
    cases filled with
    | none =>
      constructor
      · intro q hq
        simp [fillAllLoop] at hq
      · intro _
        exact ⟨k + 1, by rw [← hk]⟩
    | some t =>
      constructor
      · intro q hq
        rw [fillAllLoop] at hq
        by_cases hne : t.count_unfilled ≠ prev
        · rw [if_pos hne] at hq
          refine (ih t.count_unfilled t.fill_once p ⟨k + 1, ?_⟩).1 q hq
          show t.fill_once = (fillPasses p (k + 1)).bind fill_once
          rw [← hk]
          rfl
        · rw [if_neg hne] at hq
          exact ⟨k, by rw [← hk, Option.some.inj hq]⟩
      · intro hq
        rw [fillAllLoop] at hq
        by_cases hne : t.count_unfilled ≠ prev
        · rw [if_pos hne] at hq
          refine (ih t.count_unfilled t.fill_once p ⟨k + 1, ?_⟩).2 hq
          show t.fill_once = (fillPasses p (k + 1)).bind fill_once
          rw [← hk]
          rfl
        · rw [if_neg hne] at hq
          cases hq

theorem fill_all_reaches (p : SudokuPuzzle) :
    (∀ q, p.fill_all = some q → ∃ n, fillPasses p (n + 1) = some q)
    ∧ (p.fill_all = none → ∃ n, fillPasses p n = none) :=
  fillAllLoop_passes (p.count_unfilled + 1) p.count_unfilled p.fill_once p
    ⟨0, (fillPasses_one p).symm⟩

theorem fillAllLoop_stable_succ :
    ∀ (fuel prev : Nat) (filled : Option SudokuPuzzle),
      (∀ t, filled = some t → t.count_unfilled ≤ prev) → prev < fuel →
      fillAllLoop (fuel + 1) prev filled = fillAllLoop fuel prev filled := by
  intro fuel
  induction fuel with
  | zero => intro prev filled hinv hb; exact absurd hb (Nat.not_lt_zero prev)
  | succ f ih =>
    intro prev filled hinv hb
    cases filled with
    | none => simp [fillAllLoop]
    | some t =>
      show (if t.count_unfilled ≠ prev
          then fillAllLoop (f + 1) t.count_unfilled t.fill_once else some t)
        = (if t.count_unfilled ≠ prev
          then fillAllLoop f t.count_unfilled t.fill_once else some t)
      by_cases hne : t.count_unfilled ≠ prev
      · rw [if_pos hne, if_pos hne]
        have hle := hinv t rfl
        exact ih t.count_unfilled t.fill_once (fun u hu => fill_once_count_le t u hu) (by omega)
      · rw [if_neg hne, if_neg hne]

theorem fillAllLoop_stable :
    ∀ (m fuel prev : Nat) (filled : Option SudokuPuzzle),
      (∀ t, filled = some t → t.count_unfilled ≤ prev) → prev < fuel → fuel ≤ m →
      fillAllLoop m prev filled = fillAllLoop fuel prev filled := by
  intro m
  induction m with
  | zero => intro fuel prev filled hinv hb hle; omega
  | succ m ih =>
    intro fuel prev filled hinv hb hle
    rcases Nat.eq_or_lt_of_le hle with heq | hlt
    · rw [heq]
    · have h2 : prev < m := by omega
      rw [fillAllLoop_stable_succ m prev filled hinv h2]
      exact ih fuel prev filled hinv hb (by omega)

theorem fill_all_fuel_irrelevant (p : SudokuPuzzle) (n : Nat) (h : p.count_unfilled < n) :
    fillAllLoop n p.count_unfilled p.fill_once = p.fill_all := by
  rw [fill_all]
  rcases Nat.lt_or_ge n (p.count_unfilled + 1) with hlt | hge
  · omega
  · exact fillAllLoop_stable n (p.count_unfilled + 1) p.count_unfilled p.fill_once
      (fun t ht => fill_once_count_le p t ht) (by omega) hge

end SudokuPuzzle

/-! ## The guess-cell selection scan -/

theorem pairwise_getLastD {α : Type} (R : α → α → Prop) :
    ∀ (m : List α) (d : α), m.Pairwise R → ∀ y ∈ m, y = m.getLastD d ∨ R y (m.getLastD d) := by
  intro m
  induction m with
  | nil => intro d _ y hy; cases hy
  | cons x xs ih =>
    intro d hp y hy
    rw [List.getLastD_cons]
    rcases List.mem_cons.mp hy with rfl | hmem
    · cases hxs : xs with
      | nil => left; rfl
      | cons a t =>
        right
        have hR := (List.pairwise_cons.mp hp).1
        rw [hxs] at hR
        rw [List.getLastD_cons]
        exact hR _ (List.getLastD_mem_cons t a)
    · exact ih x (List.pairwise_cons.mp hp).2 y hmem

theorem foldl_select_eq {α : Type} (P : α → Prop) [DecidablePred P] :
    ∀ (l : List α) (init : α),
      l.foldl (fun acc x => if P x then x else acc) init
        = (l.filter fun x => decide (P x)).getLastD init := by
  intro l
  induction l with
  | nil => intro init; rfl
  | cons a t ih =>
    intro init
    by_cases h : P a
    · rw [List.foldl_cons, if_pos h, ih a, List.filter_cons_of_pos (by simp [h]),
        List.getLastD_cons]
    · rw [List.foldl_cons, if_neg h, ih init, List.filter_cons_of_neg (by simp [h])]

theorem allCells_pairwise :
    allCells.Pairwise (fun a b : Fin 9 × Fin 9 =>
      a.1.val * 9 + a.2.val < b.1.val * 9 + b.2.val) := by decide

namespace SudokuPuzzle

theorem selectCell_eq (p : SudokuPuzzle) :
    p.selectCell = (allCells.filter fun rc =>
      decide ((p.could_be_sets rc.1 rc.2).size > 1)).getLastD (0, 0) := by
  rw [selectCell]
  exact foldl_select_eq (fun rc : Fin 9 × Fin 9 => (p.could_be_sets rc.1 rc.2).size > 1)
    allCells (0, 0)

theorem selectCell_spec (p : SudokuPuzzle)
    (hex : ∃ r c : Fin 9, 1 < (p.could_be_sets r c).size) :
    1 < (p.could_be_sets (p.selectCell).1 (p.selectCell).2).size ∧
    ∀ r c : Fin 9, 1 < (p.could_be_sets r c).size →
      r.val * 9 + c.val ≤ (p.selectCell).1.val * 9 + (p.selectCell).2.val := by
  obtain ⟨r0, c0, h0⟩ := hex
  have hmem : (r0, c0) ∈ allCells.filter fun rc =>
      decide ((p.could_be_sets rc.1 rc.2).size > 1) :=
    List.mem_filter.mpr ⟨mem_allCells _, by simpa using h0⟩
  have hpw : (allCells.filter fun rc =>
      decide ((p.could_be_sets rc.1 rc.2).size > 1)).Pairwise
        (fun a b : Fin 9 × Fin 9 => a.1.val * 9 + a.2.val < b.1.val * 9 + b.2.val) :=
    allCells_pairwise.filter _
  have hselmem : p.selectCell ∈ allCells.filter fun rc =>
      decide ((p.could_be_sets rc.1 rc.2).size > 1) := by
    rw [selectCell_eq]
    cases hml : allCells.filter fun rc =>
        decide ((p.could_be_sets rc.1 rc.2).size > 1) with
    | nil => rw [hml] at hmem; cases hmem
    | cons a t =>
      rw [List.getLastD_cons]
      exact List.getLastD_mem_cons t a
  constructor
  · have := (List.mem_filter.mp hselmem).2
    simpa using this
  · intro r c hq
    have hcmem : (r, c) ∈ allCells.filter fun rc =>
        decide ((p.could_be_sets rc.1 rc.2).size > 1) :=
      List.mem_filter.mpr ⟨mem_allCells _, by simpa using hq⟩
    have hlast := pairwise_getLastD _ _ (0, 0) hpw (r, c) hcmem
    rw [← selectCell_eq] at hlast
    rcases hlast with heq | hlt
    · exact le_of_eq (by rw [← heq])
    · exact le_of_lt hlt

theorem fixpoint_select (q : SudokuPuzzle) (hfix : q.fill_once = some q)
    (hne : q.count_unfilled ≠ 0) :
    (∃ r c : Fin 9, 1 < (q.could_be_sets r c).size)
    ∧ 1 < (q.could_be_sets (q.selectCell).1 (q.selectCell).2).size
    ∧ q.nums.get (q.selectCell).1 (q.selectCell).2 = none := by
  have hex : ∃ r c, q.nums.get r c = none := by
    by_contra h
    push_neg at h
    exact hne ((count_unfilled_eq_zero_iff q).mpr h)
  obtain ⟨r0, c0, h0⟩ := hex
  have h2 : 1 < (q.could_be_sets r0 c0).size := fixpoint_empty_ge_two q hfix r0 c0 h0
  have hsel := (selectCell_spec q ⟨r0, c0, h2⟩).1
  have hselnone : q.nums.get (q.selectCell).1 (q.selectCell).2 = none := by
    cases hv : q.nums.get (q.selectCell).1 (q.selectCell).2 with
    | none => rfl
    | some v =>
      have := filled_size_one q (q.selectCell).1 (q.selectCell).2 v hv
      omega
  exact ⟨⟨r0, c0, h2⟩, hsel, hselnone⟩

end SudokuPuzzle

/-! ## `findSome?` and fuel stability of the solver -/

theorem findSome_congr {α β : Type} (f g : α → Option β) :
    ∀ l : List α, (∀ a ∈ l, f a = g a) → l.findSome? f = l.findSome? g := by
  intro l
  induction l with
  | nil => intro _; rfl
  | cons x t ih =>
    intro h
    rw [List.findSome?_cons, List.findSome?_cons, h x (List.mem_cons_self x t)]
    cases g x with
    | some v => rfl
    | none => exact ih fun a ha => h a (List.mem_cons_of_mem x ha)

theorem findSome_eq_none_iff {α β : Type} (f : α → Option β) :
    ∀ l : List α, l.findSome? f = none ↔ ∀ a ∈ l, f a = none := by
  intro l
  induction l with
  | nil => simp
  | cons x t ih =>
    rw [List.findSome?_cons]
    cases hx : f x with
    | some v => simp [hx]
    | none =>
      constructor
      · intro h a ha
        rcases List.mem_cons.mp ha with rfl | hmem
        · exact hx
        · exact (ih.mp h) a hmem
      · intro h
        exact ih.mpr fun a ha => h a (List.mem_cons_of_mem x ha)

theorem findSome_eq_some_exists {α β : Type} (f : α → Option β) :
    ∀ (l : List α) (b : β), l.findSome? f = some b → ∃ a ∈ l, f a = some b := by
  intro l
  induction l with
  | nil => intro b h; cases h
  | cons x t ih =>
    intro b h
    rw [List.findSome?_cons] at h
    cases hx : f x with
    | some v =>
      rw [hx] at h
      exact ⟨x, List.mem_cons_self x t, by rw [hx, Option.some.inj h]⟩
    | none =>
      rw [hx] at h
      obtain ⟨a, ha, hfa⟩ := ih b h
      exact ⟨a, List.mem_cons_of_mem x ha, hfa⟩

theorem findSome_pairwise_eq_some {α β : Type} (R : α → α → Prop)
    (hirr : ∀ a, ¬R a a) (hasymm : ∀ a b, R a b → ¬R b a) (f : α → Option β) :
    ∀ (l : List α), l.Pairwise R → ∀ b,
      (l.findSome? f = some b ↔
        ∃ a ∈ l, f a = some b ∧ ∀ a2 ∈ l, R a2 a → f a2 = none) := by
  intro l
  induction l with
  | nil => simp
  | cons x t ih =>
    intro hp b
    rw [List.findSome?_cons]
    have hxall := (List.pairwise_cons.mp hp).1
    have htp := (List.pairwise_cons.mp hp).2
    cases hx : f x with
    | some v =>
      constructor
      · intro h
        refine ⟨x, List.mem_cons_self x t, by rw [hx, Option.some.inj h], ?_⟩
        intro a2 ha2 hr
        rcases List.mem_cons.mp ha2 with rfl | hmem
        · exact absurd hr (hirr a2)
        · exact absurd hr (hasymm x a2 (hxall a2 hmem))
      · rintro ⟨a, ha, hfa, hmin⟩
        rcases List.mem_cons.mp ha with rfl | hmem
        · rw [hx] at hfa
          exact hfa
        · have := hmin x (List.mem_cons_self x t) (hxall a hmem)
          rw [hx] at this
          cases this
    | none =>
      rw [ih htp b]
      constructor
      · rintro ⟨a, ha, hfa, hmin⟩
        refine ⟨a, List.mem_cons_of_mem x ha, hfa, ?_⟩
        intro a2 ha2 hr
        rcases List.mem_cons.mp ha2 with rfl | hmem
        · exact hx
        · exact hmin a2 hmem hr
      · rintro ⟨a, ha, hfa, hmin⟩
        rcases List.mem_cons.mp ha with rfl | hmem
        · rw [hx] at hfa
          cases hfa
        · exact ⟨a, hmem, hfa, fun a2 h2 hr => hmin a2 (List.mem_cons_of_mem x h2) hr⟩

namespace SudokuPuzzle

theorem is_solved_iff (p : SudokuPuzzle) :
    p.is_solved = true ↔ p.count_unfilled = 0 ∧ p.is_consistent = true := by
  simp [is_solved]

theorem count_ne_zero_of_not_solved (q : SudokuPuzzle) (hs : q.is_solved = false)
    (hcons : q.is_consistent = true) : q.count_unfilled ≠ 0 := by
  intro h0
  simp [is_solved, h0, hcons] at hs

theorem solveFuel_succ (n : Nat) (p : SudokuPuzzle) :
    solveFuel (n + 1) p =
      match p.fill_all with
      | some q =>
        if q.is_solved then some q
        else if q.is_consistent then try_guesses n q
        else none
      | none => none := rfl

theorem try_guesses_eq_of (q : SudokuPuzzle) (hfix : q.fill_once = some q)
    (hne : q.count_unfilled ≠ 0) (n m : Nat)
    (hrec : ∀ g : SudokuPuzzle, g.count_unfilled < q.count_unfilled →
      solveFuel n g = solveFuel m g) :
    try_guesses n q = try_guesses m q := by
  rw [try_guesses, try_guesses]
  apply findSome_congr
  intro guess _
  apply hrec
  apply count_setCell_lt
  exact (fixpoint_select q hfix hne).2.2

theorem solveFuel_stable_succ :
    ∀ (n : Nat) (p : SudokuPuzzle), p.count_unfilled ≤ n →
      solveFuel (n + 1) p = solveFuel (n + 2) p := by
  intro n
  induction n with
  | zero =>
    intro p hc
    rw [solveFuel_succ, solveFuel_succ]
    cases hfa : p.fill_all with
    | none => rfl
    | some q =>
      by_cases hs : q.is_solved = true
      · simp [hs]
      · by_cases hcons : q.is_consistent = true
        · have hne := count_ne_zero_of_not_solved q (Bool.not_eq_true _ ▸ eq_false_of_ne_true hs)
            hcons
          have hle := fill_all_count_le p q hfa
          omega
        · simp [hs, hcons]
  | succ n ih =>
    intro p hc
    rw [solveFuel_succ, solveFuel_succ]
    cases hfa : p.fill_all with
    | none => rfl
    | some q =>
      by_cases hs : q.is_solved = true
      · simp [hs]
      · by_cases hcons : q.is_consistent = true
        · simp only [hs, hcons, Bool.false_eq_true, if_false, if_true]
          have hne := count_ne_zero_of_not_solved q (eq_false_of_ne_true hs) hcons
          have hle := fill_all_count_le p q hfa
          refine try_guesses_eq_of q (fill_all_fixpoint p q hfa) hne (n + 1) (n + 2) ?_
          intro g hg
          exact ih g (by omega)
        · simp [hs, hcons]

theorem solveFuel_stable :
    ∀ (m n : Nat) (p : SudokuPuzzle), p.count_unfilled < n → n ≤ m →
      solveFuel n p = solveFuel m p := by
  intro m
  induction m with
  | zero => intro n p h1 h2; omega
  | succ m ih =>
    intro n p h1 h2
    rcases Nat.eq_or_lt_of_le h2 with heq | hlt
    · rw [heq]
    · rw [ih n p h1 (by omega)]
      cases m with
      | zero => omega
      | succ k => exact solveFuel_stable_succ k p (by omega)

theorem solve_fuel_irrelevant (p : SudokuPuzzle) (n : Nat) (h : p.count_unfilled < n) :
    solveFuel n p = p.solve := by
  rw [solve]
  exact (solveFuel_stable n (p.count_unfilled + 1) p (by omega) (by omega)).symm

end SudokuPuzzle

/-! ## Row, column and box value lists -/

namespace SudokuPuzzle

theorem sqrRow_val (b i : Fin 9) : (sqrRow b i).val = b.val / 3 * 3 + i.val / 3 := rfl

theorem sqrCol_val (b i : Fin 9) : (sqrCol b i).val = b.val % 3 * 3 + i.val % 3 := rfl

theorem boxIdx_val (r c : Fin 9) : (boxIdx r c).val = r.val / 3 * 3 + c.val / 3 := rfl

theorem mem_row_list (p : SudokuPuzzle) (r : Fin 9) (d : Digit) :
    d ∈ p.row_list r ↔ ∃ c2 : Fin 9, p.nums.get r c2 = some d := by
  simp [row_list, List.mem_filterMap]

theorem mem_col_list (p : SudokuPuzzle) (c : Fin 9) (d : Digit) :
    d ∈ p.col_list c ↔ ∃ r2 : Fin 9, p.nums.get r2 c = some d := by
  simp [col_list, List.mem_filterMap]

theorem mem_sqr_list_box (p : SudokuPuzzle) (row col : Fin 9) (d : Digit) :
    d ∈ p.sqr_list (boxIdx row col) ↔
      ∃ r2 c2 : Fin 9, r2.val / 3 = row.val / 3 ∧ c2.val / 3 = col.val / 3 ∧
        p.nums.get r2 c2 = some d := by
  rw [sqr_list]
  simp only [List.mem_filterMap, List.mem_finRange, true_and]
  constructor
  · rintro ⟨i, hi⟩
    refine ⟨sqrRow (boxIdx row col) i, sqrCol (boxIdx row col) i, ?_, ?_, hi⟩
    · rw [sqrRow_val, boxIdx_val]
      have h1 := row.isLt
      have h2 := col.isLt
      have h3 := i.isLt
      omega
    · rw [sqrCol_val, boxIdx_val]
      have h1 := row.isLt
      have h2 := col.isLt
      have h3 := i.isLt
      omega
  · rintro ⟨r2, c2, h1, h2, h3⟩
    have hb1 := row.isLt
    have hb2 := col.isLt
    have hb3 := r2.isLt
    have hb4 := c2.isLt
    refine ⟨⟨r2.val % 3 * 3 + c2.val % 3, by omega⟩, ?_⟩
    have hrow : sqrRow (boxIdx row col) ⟨r2.val % 3 * 3 + c2.val % 3, by omega⟩ = r2 := by
      apply Fin.ext
      show (boxIdx row col).val / 3 * 3 + (r2.val % 3 * 3 + c2.val % 3) / 3 = r2.val
      rw [boxIdx_val]
      omega
    have hcol : sqrCol (boxIdx row col) ⟨r2.val % 3 * 3 + c2.val % 3, by omega⟩ = c2 := by
      apply Fin.ext
      show (boxIdx row col).val % 3 * 3 + (r2.val % 3 * 3 + c2.val % 3) % 3 = c2.val
      rw [boxIdx_val]
      omega
    rw [hrow, hcol]
    exact h3

theorem could_be_set_contains (p : SudokuPuzzle) (row col : Fin 9) (d : Digit) :
    ((p.could_be_set row col).contains d = true) ↔
      ¬(d ∈ p.row_list row ∨ d ∈ p.col_list col ∨ d ∈ p.sqr_list (boxIdx row col)) := by
  rw [could_be_set, NineSet.contains_complement]
  apply not_congr
  rw [NineSet.contains_union]
  simp only [row_set, col_set, sqr_set]
  constructor
  · rintro ⟨s, hs, hd⟩
    simp only [List.mem_cons, List.not_mem_nil, or_false] at hs
    rcases hs with rfl | rfl | rfl
    · exact Or.inl ((NineSet.contains_ofList _ d).mp hd)
    · exact Or.inr (Or.inl ((NineSet.contains_ofList _ d).mp hd))
    · exact Or.inr (Or.inr ((NineSet.contains_ofList _ d).mp hd))
  · rintro (hd | hd | hd)
    · exact ⟨NineSet.ofList (p.row_list row), by simp,
        (NineSet.contains_ofList _ d).mpr hd⟩
    · exact ⟨NineSet.ofList (p.col_list col), by simp,
        (NineSet.contains_ofList _ d).mpr hd⟩
    · exact ⟨NineSet.ofList (p.sqr_list (boxIdx row col)), by simp,
        (NineSet.contains_ofList _ d).mpr hd⟩

end SudokuPuzzle

theorem length_filterMap_eq_iff {α β : Type} (f : α → Option β) :
    ∀ l : List α, ((l.filterMap f).length = l.length ↔ ∀ a ∈ l, (f a).isSome = true) := by
  intro l
  induction l with
  | nil => simp
  | cons x t ih =>
    cases hx : f x with
    | none =>
      rw [List.filterMap_cons_none hx]
      have hle := List.length_filterMap_le f t
      simp only [List.length_cons, List.mem_cons]
      constructor
      · intro h; omega
      · intro h
        have := h x (Or.inl rfl)
        rw [hx] at this
        cases this
    | some v =>
      rw [List.filterMap_cons_some hx]
      simp only [List.length_cons, Nat.add_right_cancel_iff, List.mem_cons]
      rw [ih]
      constructor
      · intro h a ha
        rcases ha with rfl | ha
        · rw [hx]; rfl
        · exact h a ha
      · intro h a ha
        exact h a (Or.inr ha)

theorem nodup_length9_count (l : List Digit) (hn : l.Nodup) (h9 : l.length = 9) (d : Digit) :
    l.count d = 1 := by
  have huniv : l.toFinset = Finset.univ := by
    apply Finset.eq_univ_of_card
    rw [List.toFinset_card_of_nodup hn, h9, Fintype.card_fin]
  have hmem : d ∈ l := by
    rw [← List.mem_toFinset, huniv]
    exact Finset.mem_univ d
  exact List.count_eq_one_of_mem hn hmem

theorem count_one_nodup_length9 (l : List Digit) (h : ∀ d : Digit, l.count d = 1) :
    l.Nodup ∧ l.length = 9 := by
  have hn : l.Nodup := List.nodup_iff_count_le_one.mpr fun d => le_of_eq (h d)
  refine ⟨hn, ?_⟩
  have huniv : l.toFinset = Finset.univ := by
    apply Finset.eq_univ_of_forall
    intro d
    rw [List.mem_toFinset]
    have := h d
    exact List.count_pos_iff.mp (by omega)
  rw [← List.toFinset_card_of_nodup hn, huniv, Finset.card_univ, Fintype.card_fin]

namespace SudokuPuzzle

theorem is_consistent_iff_nodup (p : SudokuPuzzle) :
    p.is_consistent = true ↔
      ∀ i : Fin 9, (p.row_list i).Nodup ∧ (p.col_list i).Nodup ∧ (p.sqr_list i).Nodup := by
  rw [is_consistent, List.all_eq_true]
  constructor
  · intro h i
    have hh := h i (List.mem_finRange i)
    simp only [Bool.and_eq_true, beq_iff_eq] at hh
    exact ⟨(NineSet.length_eq_size_ofList_iff_nodup _).mp hh.1.1,
      (NineSet.length_eq_size_ofList_iff_nodup _).mp hh.1.2,
      (NineSet.length_eq_size_ofList_iff_nodup _).mp hh.2⟩
  · intro h i _
    obtain ⟨h1, h2, h3⟩ := h i
    simp only [Bool.and_eq_true, beq_iff_eq]
    exact ⟨⟨(NineSet.length_eq_size_ofList_iff_nodup _).mpr h1,
      (NineSet.length_eq_size_ofList_iff_nodup _).mpr h2⟩,
      (NineSet.length_eq_size_ofList_iff_nodup _).mpr h3⟩

theorem row_list_length_of_full (p : SudokuPuzzle) (h : ∀ r c, p.nums.get r c ≠ none)
    (i : Fin 9) : (p.row_list i).length = 9 := by
  rw [row_list]
  calc ((List.finRange 9).filterMap fun col => p.nums.get i col).length
      = (List.finRange 9).length := by
        apply (length_filterMap_eq_iff _ _).mpr
        intro a _
        cases ho : p.nums.get i a with
        | none => exact absurd ho (h i a)
        | some v => rfl
  _ = 9 := List.length_finRange 9

theorem col_list_length_of_full (p : SudokuPuzzle) (h : ∀ r c, p.nums.get r c ≠ none)
    (i : Fin 9) : (p.col_list i).length = 9 := by
  rw [col_list]
  calc ((List.finRange 9).filterMap fun row => p.nums.get row i).length
      = (List.finRange 9).length := by
        apply (length_filterMap_eq_iff _ _).mpr
        intro a _
        cases ho : p.nums.get a i with
        | none => exact absurd ho (h a i)
        | some v => rfl
  _ = 9 := List.length_finRange 9

theorem sqr_list_length_of_full (p : SudokuPuzzle) (h : ∀ r c, p.nums.get r c ≠ none)
    (i : Fin 9) : (p.sqr_list i).length = 9 := by
  rw [sqr_list]
  calc ((List.finRange 9).filterMap fun j => p.nums.get (sqrRow i j) (sqrCol i j)).length
      = (List.finRange 9).length := by
        apply (length_filterMap_eq_iff _ _).mpr
        intro a _
        cases ho : p.nums.get (sqrRow i a) (sqrCol i a) with
        | none => exact absurd ho (h _ _)
        | some v => rfl
  _ = 9 := List.length_finRange 9

theorem full_of_row_list_lengths (p : SudokuPuzzle)
    (h : ∀ i : Fin 9, (p.row_list i).length = 9) : ∀ r c, p.nums.get r c ≠ none := by
  intro r c
  have h9 : ((List.finRange 9).filterMap fun col => p.nums.get r col).length
      = (List.finRange 9).length := by
    rw [List.length_finRange]
    exact h r
  have hall := (length_filterMap_eq_iff _ _).mp h9 c (List.mem_finRange c)
  cases ho : p.nums.get r c with
  | none => rw [ho] at hall; cases hall
  | some v => intro hno; cases hno

end SudokuPuzzle

/-! ## Behaviour of the recursive solver -/

namespace SudokuPuzzle

theorem solveFuel_solved :
    ∀ (n : Nat) (p s : SudokuPuzzle), solveFuel n p = some s → s.is_solved = true := by
  intro n
  induction n with
  | zero => intro p s h; cases h
  | succ n ih =>
    intro p s h
    rw [solveFuel_succ] at h
    cases hfa : p.fill_all with
    | none => rw [hfa] at h; cases h
    | some q =>
      rw [hfa] at h
      have h2 : (if q.is_solved then some q
          else if q.is_consistent then try_guesses n q else none) = some s := h
      by_cases hs : q.is_solved = true
      · rw [if_pos hs] at h2
        rw [← Option.some.inj h2]
        exact hs
      · rw [if_neg hs] at h2
        by_cases hc : q.is_consistent = true
        · rw [if_pos hc, try_guesses] at h2
          obtain ⟨g, _, hsol⟩ := findSome_eq_some_exists _ _ s h2
          exact ih _ s hsol
        · rw [if_neg hc] at h2
          cases h2

theorem solveFuel_preserves_filled :
    ∀ (n : Nat) (p s : SudokuPuzzle), solveFuel n p = some s →
      ∀ (r c : Fin 9) (v : Digit), p.nums.get r c = some v → s.nums.get r c = some v := by
  intro n
  induction n with
  | zero => intro p s h; cases h
  | succ n ih =>
    intro p s h r c v hv
    rw [solveFuel_succ] at h
    cases hfa : p.fill_all with
    | none => rw [hfa] at h; cases h
    | some q =>
      rw [hfa] at h
      have h2 : (if q.is_solved then some q
          else if q.is_consistent then try_guesses n q else none) = some s := h
      have hq : q.nums.get r c = some v := fill_all_preserves_filled p q hfa r c v hv
      by_cases hs : q.is_solved = true
      · rw [if_pos hs] at h2
        rw [← Option.some.inj h2]
        exact hq
      · rw [if_neg hs] at h2
        by_cases hc : q.is_consistent = true
        · rw [if_pos hc, try_guesses] at h2
          obtain ⟨g, _, hsol⟩ := findSome_eq_some_exists _ _ s h2
          have hfix := fill_all_fixpoint p q hfa
          have hne := count_ne_zero_of_not_solved q (eq_false_of_ne_true hs) hc
          have hselnone := (fixpoint_select q hfix hne).2.2
          refine ih _ s hsol r c v ?_
          rw [get_setCell_of_ne]
          · exact hq
          · intro hrc
            rw [hrc.1, hrc.2, hselnone] at hq
            cases hq
        · rw [if_neg hc] at h2
          cases h2

end SudokuPuzzle

open SudokuPuzzle

/-! ## The specification claims -/

/-- **C1.** Whenever `solve` returns `Some(p)`, the grid of `p` has zero empty
cells and `is_consistent` holds of it: no partially-filled or inconsistent
grid is ever returned. -/
theorem spec_C1_solve_complete (p s : SudokuPuzzle) (h : p.solve = some s) :
    s.count_unfilled = 0 ∧ s.is_consistent = true :=
  (is_solved_iff s).mp (solveFuel_solved (p.count_unfilled + 1) p s h)

theorem spec_C1_witness :
    solvedPuzzle.solve = some solvedPuzzle ∧
      solvedPuzzle.count_unfilled = 0 ∧ solvedPuzzle.is_consistent = true :=
  ⟨by decide, spec_C1_solve_complete solvedPuzzle solvedPuzzle (by decide)⟩

/-- **C2.** The possibility set of a filled cell is the singleton of its value;
the possibility set of an empty cell is the complement (within `[1,9]`) of the
union of the values present in its row, its column, and its 3×3 box (the box
of index `(row/3)*3 + (col/3)`, whose cells are exactly those `(r2, c2)` with
`r2/3 = row/3` and `c2/3 = col/3`). -/
theorem spec_C2_could_be_sets (p : SudokuPuzzle) (row col : Fin 9) (d : Digit) :
    ((p.could_be_sets row col).contains d = true) ↔
      (match p.nums.get row col with
       | some v => d = v
       | none =>
         ¬((∃ c2 : Fin 9, p.nums.get row c2 = some d)
           ∨ (∃ r2 : Fin 9, p.nums.get r2 col = some d)
           ∨ (∃ r2 c2 : Fin 9, r2.val / 3 = row.val / 3 ∧ c2.val / 3 = col.val / 3 ∧
               p.nums.get r2 c2 = some d))) := by
  cases hv : p.nums.get row col with
  | some v =>
    simp only [could_be_sets, hv]
    exact NineSet.contains_singleton v d
  | none =>
    simp only [could_be_sets, hv]
    rw [could_be_set_contains]
    apply not_congr
    rw [mem_row_list, mem_col_list, mem_sqr_list_box]

/-- **C3.** A single propagation pass computes every cell's possibility set
from the input grid: it fails exactly when some cell's possibility set is
empty, and otherwise produces a new grid in which a cell with a singleton
possibility set holds that single value and a cell with a larger possibility
set is empty (the input puzzle itself is untouched — the pass is a pure
function of the input). -/
theorem spec_C3_fill_once (p : SudokuPuzzle) :
    (p.fill_once = none ↔ ∃ r c : Fin 9, (p.could_be_sets r c).size = 0)
    ∧ (∀ q : SudokuPuzzle, p.fill_once = some q → ∀ r c : Fin 9,
        ((p.could_be_sets r c).size = 1 →
          ∀ v : Digit, (q.nums.get r c = some v ↔ (p.could_be_sets r c).contains v = true))
        ∧ (1 < (p.could_be_sets r c).size → q.nums.get r c = none)) := by
  refine ⟨fill_once_eq_none_iff p, ?_⟩
  intro q hq r c
  constructor
  · intro h1 v
    rw [fill_once_get p q hq r c, if_pos h1]
    obtain ⟨w, hw⟩ := (NineSet.size_eq_one_iff _).mp h1
    rw [hw]
    constructor
    · intro h
      have hwv : w = v := Option.some.inj h
      rw [← NineSet.mem_to_vec, hw, hwv]
      exact List.mem_singleton_self v
    · intro h
      have hv2 : v ∈ (p.could_be_sets r c).to_vec := (NineSet.mem_to_vec _ _).mpr h
      rw [hw, List.mem_singleton] at hv2
      rw [hv2]
      rfl
  · intro h2
    rw [fill_once_get p q hq r c, if_neg (by omega)]

theorem spec_C3_witness :
    (emptyPuzzle.fill_once = none ↔ ∃ r c : Fin 9, (emptyPuzzle.could_be_sets r c).size = 0)
    ∧ (∀ r c : Fin 9,
        ((emptyPuzzle.could_be_sets r c).size = 1 →
          ∀ v : Digit, (emptyPuzzle.nums.get r c = some v ↔
            (emptyPuzzle.could_be_sets r c).contains v = true))
        ∧ (1 < (emptyPuzzle.could_be_sets r c).size → emptyPuzzle.nums.get r c = none)) :=
  ⟨(spec_C3_fill_once emptyPuzzle).1,
   (spec_C3_fill_once emptyPuzzle).2 emptyPuzzle (by decide)⟩

/-- **C4.** Propagation to fixpoint repeatedly invokes the single pass:
a `some` result is the grid produced by some positive number of `fill_once`
passes, and it is a fixpoint of `fill_once` (so a further pass would not
reduce the number of empty cells); a `none` result means some pass failed. -/
theorem spec_C4_fill_all (p : SudokuPuzzle) :
    (∀ q : SudokuPuzzle, p.fill_all = some q →
      q.fill_once = some q ∧ ∃ n : Nat, fillPasses p (n + 1) = some q)
    ∧ (p.fill_all = none → ∃ n : Nat, fillPasses p n = none) :=
  ⟨fun q hq => ⟨fill_all_fixpoint p q hq, (fill_all_reaches p).1 q hq⟩,
   (fill_all_reaches p).2⟩

theorem spec_C4_witness :
    emptyPuzzle.fill_once = some emptyPuzzle
      ∧ ∃ n : Nat, fillPasses emptyPuzzle (n + 1) = some emptyPuzzle :=
  (spec_C4_fill_all emptyPuzzle).1 emptyPuzzle (by decide)

/-- **C5.** When some cell is ambiguous, `try_guesses` guesses at the last
cell in row-major order whose possibility set has more than one member; the
candidates (the members of that cell's possibility set, listed in ascending
order) are each tried on a copy of the puzzle with the candidate assigned at
that cell, and the result is that of the first recursive solve that succeeds,
or `none` when every candidate fails. -/
theorem spec_C5_try_guesses (fuel : Nat) (p : SudokuPuzzle)
    (hex : ∃ r c : Fin 9, 1 < (p.could_be_sets r c).size) :
    (1 < (p.could_be_sets (p.selectCell).1 (p.selectCell).2).size
      ∧ ∀ r c : Fin 9, 1 < (p.could_be_sets r c).size →
          r.val * 9 + c.val ≤ (p.selectCell).1.val * 9 + (p.selectCell).2.val)
    ∧ ((p.could_be_sets (p.selectCell).1 (p.selectCell).2).to_vec.Pairwise (· < ·))
    ∧ (∀ s : SudokuPuzzle, try_guesses fuel p = some s ↔
        ∃ g ∈ (p.could_be_sets (p.selectCell).1 (p.selectCell).2).to_vec,
          solveFuel fuel (p.setCell (p.selectCell).1 (p.selectCell).2 g) = some s
          ∧ ∀ g2 ∈ (p.could_be_sets (p.selectCell).1 (p.selectCell).2).to_vec, g2 < g →
              solveFuel fuel (p.setCell (p.selectCell).1 (p.selectCell).2 g2) = none)
    ∧ (try_guesses fuel p = none ↔
        ∀ g ∈ (p.could_be_sets (p.selectCell).1 (p.selectCell).2).to_vec,
          solveFuel fuel (p.setCell (p.selectCell).1 (p.selectCell).2 g) = none) := by
  refine ⟨selectCell_spec p hex, NineSet.to_vec_sorted _, ?_, ?_⟩
  · intro s
    rw [try_guesses]
    exact findSome_pairwise_eq_some (· < ·) (fun a => lt_irrefl a) (fun a b => lt_asymm) _ _
      (NineSet.to_vec_sorted _) s
  · rw [try_guesses]
    exact findSome_eq_none_iff _ _

theorem spec_C5_witness :
    (1 < (emptyPuzzle.could_be_sets
        (emptyPuzzle.selectCell).1 (emptyPuzzle.selectCell).2).size
      ∧ ∀ r c : Fin 9, 1 < (emptyPuzzle.could_be_sets r c).size →
          r.val * 9 + c.val ≤
            (emptyPuzzle.selectCell).1.val * 9 + (emptyPuzzle.selectCell).2.val)
    ∧ ((emptyPuzzle.could_be_sets
        (emptyPuzzle.selectCell).1 (emptyPuzzle.selectCell).2).to_vec.Pairwise (· < ·))
    ∧ (∀ s : SudokuPuzzle, try_guesses 0 emptyPuzzle = some s ↔
        ∃ g ∈ (emptyPuzzle.could_be_sets
            (emptyPuzzle.selectCell).1 (emptyPuzzle.selectCell).2).to_vec,
          solveFuel 0 (emptyPuzzle.setCell
            (emptyPuzzle.selectCell).1 (emptyPuzzle.selectCell).2 g) = some s
          ∧ ∀ g2 ∈ (emptyPuzzle.could_be_sets
              (emptyPuzzle.selectCell).1 (emptyPuzzle.selectCell).2).to_vec, g2 < g →
              solveFuel 0 (emptyPuzzle.setCell
                (emptyPuzzle.selectCell).1 (emptyPuzzle.selectCell).2 g2) = none)
    ∧ (try_guesses 0 emptyPuzzle = none ↔
        ∀ g ∈ (emptyPuzzle.could_be_sets
            (emptyPuzzle.selectCell).1 (emptyPuzzle.selectCell).2).to_vec,
          solveFuel 0 (emptyPuzzle.setCell
            (emptyPuzzle.selectCell).1 (emptyPuzzle.selectCell).2 g) = none) :=
  spec_C5_try_guesses 0 emptyPuzzle (by decide)

/-- **C6.** A grid counts as solved (`is_consistent` and zero empty cells)
exactly when each of its 27 groups — 9 rows, 9 columns, 9 boxes — contains
every digit 1..9 exactly once. -/
theorem spec_C6_solved_iff_groups (p : SudokuPuzzle) :
    (p.count_unfilled = 0 ∧ p.is_consistent = true) ↔
      ∀ (i : Fin 9) (d : Digit),
        (p.row_list i).count d = 1 ∧ (p.col_list i).count d = 1
          ∧ (p.sqr_list i).count d = 1 := by
  constructor
  · rintro ⟨h0, hcons⟩ i d
    have hfull := (count_unfilled_eq_zero_iff p).mp h0
    have hnod := (is_consistent_iff_nodup p).mp hcons i
    exact ⟨nodup_length9_count _ hnod.1 (row_list_length_of_full p hfull i) d,
      nodup_length9_count _ hnod.2.1 (col_list_length_of_full p hfull i) d,
      nodup_length9_count _ hnod.2.2 (sqr_list_length_of_full p hfull i) d⟩
  · intro h
    constructor
    · apply (count_unfilled_eq_zero_iff p).mpr
      apply full_of_row_list_lengths
      intro i
      exact (count_one_nodup_length9 _ fun d => (h i d).1).2
    · apply (is_consistent_iff_nodup p).mpr
      intro i
      exact ⟨(count_one_nodup_length9 _ fun d => (h i d).1).1,
        (count_one_nodup_length9 _ fun d => (h i d).2.1).1,
        (count_one_nodup_length9 _ fun d => (h i d).2.2).1⟩

/-- **C7.** Solving a fully-filled consistent grid returns it unchanged:
one `fill_once` pass reproduces the grid, `fill_all` stops at once, and
`solve` returns the input itself. -/
theorem spec_C7_solved_input (p : SudokuPuzzle) (h0 : p.count_unfilled = 0)
    (hc : p.is_consistent = true) :
    p.solve = some p ∧ p.fill_once = some p ∧ p.fill_all = some p := by
  have hfull := (count_unfilled_eq_zero_iff p).mp h0
  have hfo : p.fill_once = some p := by
    have hforall : ∀ r c, (p.could_be_sets r c).size ≠ 0 := by
      intro r c
      cases hv : p.nums.get r c with
      | none => exact absurd hv (hfull r c)
      | some v => rw [filled_size_one p r c v hv]; omega
    rw [fill_once, if_pos hforall]
    congr 1
    apply SudokuPuzzle.ext_cells
    intro r c
    show (if (p.could_be_sets r c).size = 1
        then (p.could_be_sets r c).to_vec.head? else none) = p.nums.get r c
    cases hv : p.nums.get r c with
    | none => exact absurd hv (hfull r c)
    | some v =>
      rw [if_pos (filled_size_one p r c v hv), could_be_sets_of_filled p r c v hv,
        NineSet.to_vec_singleton]
      rfl
  have hfa : p.fill_all = some p := by
    rw [fill_all, h0, hfo]
    simp [fillAllLoop, h0]
  have hsol : p.solve = some p := by
    rw [solve, h0]
    rw [solveFuel_succ, hfa]
    have hs : p.is_solved = true := (is_solved_iff p).mpr ⟨h0, hc⟩
    simp [hs]
  exact ⟨hsol, hfo, hfa⟩

theorem spec_C7_witness :
    solvedPuzzle.solve = some solvedPuzzle ∧ solvedPuzzle.fill_once = some solvedPuzzle
      ∧ solvedPuzzle.fill_all = some solvedPuzzle :=
  spec_C7_solved_input solvedPuzzle (by decide) (by decide)

/-- **C8.** `solve` terminates on every input: the recursion depth is bounded
by the number of initially empty cells (at most 81) — formally, any fuel
exceeding `count_unfilled` yields the same result, both for the
`solve`/`try_guesses` recursion and for the `fill_all` loop — and every
recursive call made through `try_guesses` operates on a puzzle with strictly
fewer empty cells than its caller. -/
theorem spec_C8_termination (p : SudokuPuzzle) (n : Nat) (h : p.count_unfilled < n) :
    solveFuel n p = p.solve
    ∧ fillAllLoop n p.count_unfilled p.fill_once = p.fill_all
    ∧ p.count_unfilled ≤ 81
    ∧ (∀ q : SudokuPuzzle, p.fill_all = some q → q.is_solved = false →
        q.is_consistent = true →
        ∀ guess : Digit,
          (q.setCell (q.selectCell).1 (q.selectCell).2 guess).count_unfilled
            < p.count_unfilled) := by
  refine ⟨solve_fuel_irrelevant p n h, fill_all_fuel_irrelevant p n h,
    count_unfilled_le p, ?_⟩
  intro q hq hs hc guess
  have hfix := fill_all_fixpoint p q hq
  have hne := count_ne_zero_of_not_solved q hs hc
  have hselnone := (fixpoint_select q hfix hne).2.2
  have hlt := count_setCell_lt q _ _ guess hselnone
  have hle := fill_all_count_le p q hq
  omega

theorem spec_C8_witness :
    solveFuel 100 emptyPuzzle = emptyPuzzle.solve
    ∧ fillAllLoop 100 emptyPuzzle.count_unfilled emptyPuzzle.fill_once = emptyPuzzle.fill_all
    ∧ emptyPuzzle.count_unfilled ≤ 81
    ∧ (∀ q : SudokuPuzzle, emptyPuzzle.fill_all = some q → q.is_solved = false →
        q.is_consistent = true →
        ∀ guess : Digit,
          (q.setCell (q.selectCell).1 (q.selectCell).2 guess).count_unfilled
            < emptyPuzzle.count_unfilled) :=
  spec_C8_termination emptyPuzzle 100 (by decide)

/-- **C9.** Solving preserves the givens: a solution returned by `solve`
extends the input grid — every cell filled in the input is filled with the
same value in the solution. -/
theorem spec_C9_preserves_givens (p s : SudokuPuzzle) (h : p.solve = some s) :
    ∀ (r c : Fin 9) (v : Digit), p.nums.get r c = some v → s.nums.get r c = some v :=
  solveFuel_preserves_filled (p.count_unfilled + 1) p s h

theorem spec_C9_witness :
    solvedPuzzle.solve = some solvedPuzzle ∧
      (∀ (r c : Fin 9) (v : Digit), solvedPuzzle.nums.get r c = some v →
        solvedPuzzle.nums.get r c = some v) :=
  ⟨by decide, spec_C9_preserves_givens solvedPuzzle solvedPuzzle (by decide)⟩

/-- **C10.** Whenever `solve` invokes `try_guesses` — on a `fill_all` fixpoint
that is consistent but not solved — some cell's possibility set has more than
one member, every empty cell's possibility set has at least two members, and
the scan selects a genuinely ambiguous (hence empty) cell, so the `unwrap`
calls of the source cannot fault (in this embedding they are total by
construction). -/
theorem spec_C10_guess_safety (p q : SudokuPuzzle) (h : p.fill_all = some q)
    (hs : q.is_solved = false) (hc : q.is_consistent = true) :
    (∃ r c : Fin 9, 1 < (q.could_be_sets r c).size)
    ∧ (∀ r c : Fin 9, q.nums.get r c = none → 2 ≤ (q.could_be_sets r c).size)
    ∧ 1 < (q.could_be_sets (q.selectCell).1 (q.selectCell).2).size
    ∧ q.nums.get (q.selectCell).1 (q.selectCell).2 = none := by
  have hfix := fill_all_fixpoint p q h
  have hne := count_ne_zero_of_not_solved q hs hc
  obtain ⟨hex, hsel, hnone⟩ := fixpoint_select q hfix hne
  exact ⟨hex, fun r c hrc => fixpoint_empty_ge_two q hfix r c hrc, hsel, hnone⟩

theorem spec_C10_witness :
    (∃ r c : Fin 9, 1 < (emptyPuzzle.could_be_sets r c).size)
    ∧ (∀ r c : Fin 9, emptyPuzzle.nums.get r c = none →
        2 ≤ (emptyPuzzle.could_be_sets r c).size)
    ∧ 1 < (emptyPuzzle.could_be_sets
        (emptyPuzzle.selectCell).1 (emptyPuzzle.selectCell).2).size
    ∧ emptyPuzzle.nums.get (emptyPuzzle.selectCell).1 (emptyPuzzle.selectCell).2 = none :=
  spec_C10_guess_safety emptyPuzzle emptyPuzzle (by decide) (by decide) (by decide)
